import Mathlib

/-!
Shallow embedding of `jupyter-py/pair_selector.py` (pairs-trading pair
screeners) and verification of the specification's claims about it.

The source file defines three functions over a pandas dataframe whose
columns are real-valued price series:

* `coint(df, intercept=True, sig_level=0.01)` — enumerates all column
  pairs with `itertools.combinations`, computes a cointegration p-value
  per pair (either `statsmodels.tsa.stattools.coint` on the raw pair, or
  an OLS fit of the first series on the second plus a constant followed
  by an ADF test on the residuals), and returns the triples whose
  p-value is strictly below `sig_level`, in enumeration order.
* `normalize(p) = (p - mean p) / std p` (population standard deviation).
* `distance(df, n=10)` — scores every column pair by the sum of squared
  differences of the two normalized series, stably sorts the scored
  pairs ascending by score, and returns the pair names of `scores[:n]`
  (all of them when there are fewer than `n`).

Modelling decisions, fixed throughout:

* Numeric values are real numbers (`ℝ`).  `numpy` floating point is
  modelled exactly, except that a p-value is an `Option ℝ` where `none`
  models an IEEE NaN produced by a failed statistical test: the Python
  comparison `p_value < sig_level` is `False` whenever `p_value` is NaN,
  which `pvalLt` reproduces.  Real division by zero is Lean's `x / 0 = 0`.
* The external statsmodels routines (`smts.coint` with `trend='c'` and
  `smts.adfuller`) are numerical black boxes outside this repository;
  they are modelled as an oracle structure `StatLib` supplying one
  p-value function for each.  The OLS fit `sm.OLS(Y, add_constant(X))`
  is modelled concretely by the closed-form simple-regression solution,
  and the development proves that this closed form is the least-squares
  minimiser, so nothing about the regression itself is left abstract.
* The Python `for` loops are embedded as recursions that explicitly
  thread the dataframe through every iteration, so that the absence of
  mutation of the input table is a provable statement rather than a
  modelling artefact.
* Python list slicing `l[:n]` (including negative `n`) is embedded by
  `pySliceTo`.
-/

namespace PairSelector

/-- A dataframe: an ordered association list from column name (stock
name) to its price series.  Models the pandas dataframe argument `df`
of `coint` and `distance`. -/
structure DataFrame where
  cols : List (String × List ℝ)

/-- The ordered list of column names; models
`df.columns.values.tolist()`. -/
def columns (df : DataFrame) : List String :=
  df.cols.map Prod.fst

/-- Column access `df[name].values`: the series of the first column
with the given name (pandas column names are unique in intended use). -/
def getCol (df : DataFrame) (s : String) : List ℝ :=
  (df.cols.lookup s).getD []

/-- `itertools.combinations(l, 2)`: all pairs `(l[i], l[j])` with
`i < j`, enumerated lexicographically by position. -/
def combinations2 {α : Type} : List α → List (α × α)
  | [] => []
  | x :: xs => xs.map (fun y => (x, y)) ++ combinations2 xs

/-- The pair enumeration shared by both screeners:
`list(itertools.combinations(stock_names, 2))`. -/
def stockPairs (df : DataFrame) : List (String × String) :=
  combinations2 (columns df)

/-- A p-value as delivered by the external statistical library.  `none`
models an IEEE NaN (failed test); `some v` a finite float value. -/
def PVal : Type := Option ℝ

/-- The Python comparison `p_value < sig_level` on a possibly-NaN
p-value: any comparison with NaN is `False`. -/
noncomputable def pvalLt (p : PVal) (sig : ℝ) : Bool :=
  match p with
  | none => false
  | some v => decide (v < sig)

/-- Oracle for the two external statsmodels test routines used by
`coint`.  `smtsCoint y x` is the p-value
`statsmodels.tsa.stattools.coint(y, x, trend='c')[1]` (direct
cointegration test on the raw pair with constant-only trend);
`adfuller l` is the p-value `statsmodels.tsa.stattools.adfuller(l)[1]`
(augmented Dickey-Fuller unit-root test). -/
structure StatLib where
  smtsCoint : List ℝ → List ℝ → PVal
  adfuller : List ℝ → PVal

noncomputable section

/-- `np.mean(p)`. -/
def mean (p : List ℝ) : ℝ :=
  p.sum / p.length

/-- `np.std(p)`: the population standard deviation,
`sqrt(mean((x - mean(p))^2))`. -/
def std (p : List ℝ) : ℝ :=
  Real.sqrt ((p.map (fun x => (x - mean p) ^ 2)).sum / p.length)

/-- `normalize(p) = (p - np.mean(p)) / np.std(p)`.

Modelling caveat: Lean's real division gives `x / 0 = 0`, whereas numpy
produces NaN when `np.std(p) = 0` (a constant series).  The embedding
is therefore exact precisely when `std p ≠ 0`; every theorem about the
numeric values of normalized series or of distance scores carries
`std _ ≠ 0` hypotheses (C4, C5), and the behaviour of the screener on a
constant column is treated only structurally — which pairs appear, not
how NaN keys order — in C7. -/
def normalize (p : List ℝ) : List ℝ :=
  p.map (fun x => (x - mean p) / std p)

/-- Sum of squared deviations of `x` from its mean (`S_xx`). -/
def sxx (x : List ℝ) : ℝ :=
  (x.map (fun t => (t - mean x) ^ 2)).sum

/-- Sum of products of deviations (`S_xy`) of a dependent series `y`
and a regressor series `x`. -/
def sxy (y x : List ℝ) : ℝ :=
  (List.zipWith (fun u v => (u - mean y) * (v - mean x)) y x).sum

/-- The slope of the least-squares line of `y` on `x` with intercept;
models the `x` coefficient of `sm.OLS(Y, sm.add_constant(X)).fit()`.
`c3_ols_and_adf_pipeline` proves that together with `olsAlpha` this is
the least-squares minimiser whenever `sxx x ≠ 0`. -/
def olsBeta (y x : List ℝ) : ℝ :=
  sxy y x / sxx x

/-- The intercept of the least-squares line of `y` on `x`; models the
constant coefficient of `sm.OLS(Y, sm.add_constant(X)).fit()`. -/
def olsAlpha (y x : List ℝ) : ℝ :=
  mean y - olsBeta y x * mean x

/-- The fitted values `alpha + beta * x_i` of the regression of `y` on
`x` with intercept. -/
def fittedValues (y x : List ℝ) : List ℝ :=
  x.map (fun t => olsAlpha y x + olsBeta y x * t)

/-- The residual series `results.resid` of
`sm.OLS(Y, sm.add_constant(X)).fit()`: the dependent series minus the
fitted values. -/
def olsResid (y x : List ℝ) : List ℝ :=
  List.zipWith (fun u v => u - v) y (fittedValues y x)

/-- The sum of squared errors of an arbitrary affine fit
`y_i ≈ a + b * x_i`; the objective that ordinary least squares
minimises.  `c3_ols_adf_pipeline` proves that `olsAlpha`/`olsBeta`
minimise it, which is what makes the modelled fit the OLS fit. -/
def sse (y x : List ℝ) (a b : ℝ) : ℝ :=
  (List.zipWith (fun u v => (u - (a + b * v)) ^ 2) y x).sum

/-- The per-pair p-value computed in the body of the `coint` loop:
`smts.coint(y, x, trend='c')[1]` when `intercept` is false, and
`smts.adfuller(sm.OLS(Y, sm.add_constant(X)).fit().resid)[1]` when
`intercept` is true. -/
def cointPairPValue (lib : StatLib) (intercept : Bool) (y x : List ℝ) : PVal :=
  if intercept then lib.adfuller (olsResid y x) else lib.smtsCoint y x

/-- The `for pair in stock_pairs` loop of `coint`, with the dataframe
threaded explicitly through every iteration (the loop body only reads
`df`, so the dataframe component is invariant — proved in
`c8_idempotent_and_no_mutation`).  Appends
`(stock_1, stock_2, p_value)` to the accumulator exactly when
`p_value < sig_level`. -/
def cointLoop (lib : StatLib) (intercept : Bool) (sigLevel : ℝ) :
    List (String × String) → DataFrame × List (String × String × PVal) →
      DataFrame × List (String × String × PVal)
  | [], st => st
  | (s1, s2) :: rest, (df, acc) =>
      cointLoop lib intercept sigLevel rest
        (df,
          if pvalLt (cointPairPValue lib intercept (getCol df s1) (getCol df s2)) sigLevel then
            acc ++ [(s1, s2, cointPairPValue lib intercept (getCol df s1) (getCol df s2))]
          else acc)

/-- `coint(df, intercept, sig_level)`: the list of
`(stock_1, stock_2, p_value)` triples accumulated by the loop.  Python
defaults: `intercept=True`, `sig_level=0.01`. -/
def coint (lib : StatLib) (df : DataFrame) (intercept : Bool) (sigLevel : ℝ) :
    List (String × String × PVal) :=
  (cointLoop lib intercept sigLevel (stockPairs df) (df, [])).2

/-- The per-pair score of the `distance` loop body:
`diff = normalize(p1) - normalize(p2); dist = (diff * diff).sum()`. -/
def pairScore (p1 p2 : List ℝ) : ℝ :=
  (List.zipWith (fun a b => a * b)
    (List.zipWith (fun a b => a - b) (normalize p1) (normalize p2))
    (List.zipWith (fun a b => a - b) (normalize p1) (normalize p2))).sum

/-- The `for pair in stock_pairs` loop of `distance`, with the
dataframe threaded explicitly; appends `(dist, pair)` for every pair. -/
def distLoop :
    List (String × String) → DataFrame × List (ℝ × (String × String)) →
      DataFrame × List (ℝ × (String × String))
  | [], st => st
  | (s1, s2) :: rest, (df, acc) =>
      distLoop rest (df, acc ++ [(pairScore (getCol df s1) (getCol df s2), (s1, s2))])

/-- The `scores_to_pairs` list of `distance` before sorting. -/
def scoresToPairs (df : DataFrame) : List (ℝ × (String × String)) :=
  (distLoop (stockPairs df) (df, [])).2

/-- The comparison used to sort `scores_to_pairs`:
`sorted(..., key=lambda x: x[0])` compares scores with `≤` and is
stable. -/
def scoreLE (a b : ℝ × (String × String)) : Prop :=
  a.1 ≤ b.1

instance : DecidableRel scoreLE :=
  fun a b => Real.decidableLE a.1 b.1

instance : IsTotal (ℝ × (String × String)) scoreLE :=
  ⟨fun a b => le_total a.1 b.1⟩

instance : IsTrans (ℝ × (String × String)) scoreLE :=
  ⟨fun _ _ _ h1 h2 => le_trans h1 h2⟩

/-- Python's stable `sorted(scores_to_pairs, key=lambda x: x[0])`,
embedded as insertion sort (the unique stable sort for this key). -/
def sortedScores (df : DataFrame) : List (ℝ × (String × String)) :=
  List.insertionSort scoreLE (scoresToPairs df)

/-- Python list slicing `l[:n]` for an arbitrary integer `n`: the first
`n` elements when `n ≥ 0`, and all but the last `|n|` elements when
`n < 0`. -/
def pySliceTo {α : Type} (l : List α) (n : ℤ) : List α :=
  if n < 0 then l.take (l.length - n.natAbs) else l.take n.toNat

/-- `distance(df, n)`: stable-sorts the scored pairs ascending by score
and returns the pair names of `scores_to_pairs[:n]`, or of the whole
list when it is shorter than `n`.  Python default: `n=10`. -/
def distance (df : DataFrame) (n : ℤ) : List (String × String) :=
  if ((sortedScores df).length : ℤ) < n then
    (sortedScores df).map Prod.snd
  else
    (pySliceTo (sortedScores df) n).map Prod.snd

/-- What one iteration of the `coint` loop contributes to the result
list: the `(stock_1, stock_2, p_value)` triple when
`p_value < sig_level`, nothing otherwise. -/
def cointEntry (lib : StatLib) (intercept : Bool) (sigLevel : ℝ) (df : DataFrame)
    (pr : String × String) : Option (String × String × PVal) :=
  if pvalLt (cointPairPValue lib intercept (getCol df pr.1) (getCol df pr.2)) sigLevel then
    some (pr.1, pr.2, cointPairPValue lib intercept (getCol df pr.1) (getCol df pr.2))
  else none

/-- What one iteration of the `distance` loop appends to
`scores_to_pairs`: the pair's score together with the pair. -/
def distEntry (df : DataFrame) (pr : String × String) : ℝ × (String × String) :=
  (pairScore (getCol df pr.1) (getCol df pr.2), pr)

end

/-! ### Concrete inputs used by the witnesses and counterexamples -/

/-- A two-column table: `A = [1, -1]`, `B = [-1, 1]`. -/
def dfAB : DataFrame := ⟨[("A", [1, -1]), ("B", [-1, 1])]⟩

/-- A three-column table: `A = [1, -1]`, `B = [1, -1]`, `C = [-1, 1]`. -/
def dfABC : DataFrame := ⟨[("A", [1, -1]), ("B", [1, -1]), ("C", [-1, 1])]⟩

/-- A table whose column `B = [3, 3]` is constant (zero standard
deviation). -/
def dfConst : DataFrame := ⟨[("A", [1, -1]), ("B", [3, 3])]⟩

/-- A one-column table. -/
def dfSingle : DataFrame := ⟨[("A", [1, -1])]⟩

/-- An oracle whose tests always return the p-value `0`. -/
def constLib : StatLib := ⟨fun _ _ => some 0, fun _ => some 0⟩

/-- An oracle whose tests always fail, returning NaN. -/
def nanLib : StatLib := ⟨fun _ _ => none, fun _ => none⟩

/-! ### Helper lemmas: loop characterisations -/

theorem cointLoop_eq (lib : StatLib) (intercept : Bool) (sigLevel : ℝ)
    (pairs : List (String × String)) (df : DataFrame)
    (acc : List (String × String × PVal)) :
    cointLoop lib intercept sigLevel pairs (df, acc) =
      (df, acc ++ pairs.filterMap (cointEntry lib intercept sigLevel df)) := by
  induction pairs generalizing acc with
  | nil => simp [cointLoop]
  | cons pr rest ih =>
    obtain ⟨s1, s2⟩ := pr
    rw [cointLoop, ih]
    by_cases h : pvalLt (cointPairPValue lib intercept (getCol df s1) (getCol df s2)) sigLevel
    · simp [cointEntry, h]
    · simp [cointEntry, h]

theorem coint_eq_filterMap (lib : StatLib) (df : DataFrame) (intercept : Bool)
    (sigLevel : ℝ) :
    coint lib df intercept sigLevel =
      (stockPairs df).filterMap (cointEntry lib intercept sigLevel df) := by
  rw [coint, cointLoop_eq]
  simp

theorem distLoop_eq (pairs : List (String × String)) (df : DataFrame)
    (acc : List (ℝ × (String × String))) :
    distLoop pairs (df, acc) = (df, acc ++ pairs.map (distEntry df)) := by
  induction pairs generalizing acc with
  | nil => simp [distLoop]
  | cons pr rest ih =>
    obtain ⟨s1, s2⟩ := pr
    rw [distLoop, ih]
    simp [distEntry]

theorem scoresToPairs_eq_map (df : DataFrame) :
    scoresToPairs df = (stockPairs df).map (distEntry df) := by
  rw [scoresToPairs, distLoop_eq]
  simp

/-! ### Helper lemmas: the pair enumeration `combinations2` -/

theorem combinations2_length {α : Type} :
    ∀ l : List α, (combinations2 l).length = Nat.choose l.length 2
  | [] => rfl
  | x :: xs => by
    simp [combinations2, combinations2_length xs, Nat.choose_succ_succ,
      Nat.choose_one_right, Nat.add_comm]

theorem mem_of_mem_combinations2 {α : Type} :
    ∀ {l : List α} {p : α × α}, p ∈ combinations2 l → p.1 ∈ l ∧ p.2 ∈ l := by
  intro l
  induction l with
  | nil => intro p hp; simp [combinations2] at hp
  | cons x xs ih =>
    intro p hp
    rw [combinations2, List.mem_append] at hp
    rcases hp with hp | hp
    · rcases List.mem_map.mp hp with ⟨y, hy, rfl⟩
      exact ⟨List.mem_cons_self x xs, List.mem_cons_of_mem x hy⟩
    · rcases ih hp with ⟨h1, h2⟩
      exact ⟨List.mem_cons_of_mem x h1, List.mem_cons_of_mem x h2⟩

theorem combinations2_map {α β : Type} (f : α → β) :
    ∀ l : List α, combinations2 (l.map f) = (combinations2 l).map (Prod.map f f)
  | [] => rfl
  | x :: xs => by
    simp [combinations2, combinations2_map f xs, List.map_map, Prod.map, Function.comp]

theorem nodup_combinations2 {α : Type} :
    ∀ {l : List α}, l.Nodup → (combinations2 l).Nodup := by
  intro l
  induction l with
  | nil => intro _; simp [combinations2]
  | cons x xs ih =>
    intro h
    rw [List.nodup_cons] at h
    rw [combinations2]
    refine List.Nodup.append ?_ (ih h.2) ?_
    · exact h.2.map (fun a b hab => congrArg Prod.snd hab)
    · intro p hp hp'
      rcases List.mem_map.mp hp with ⟨y, _, rfl⟩
      exact h.1 (mem_of_mem_combinations2 hp').1

theorem fst_ne_snd_of_mem_combinations2 {α : Type} :
    ∀ {l : List α}, l.Nodup → ∀ p ∈ combinations2 l, p.1 ≠ p.2 := by
  intro l
  induction l with
  | nil => intro _ p hp; simp [combinations2] at hp
  | cons x xs ih =>
    intro h p hp
    rw [List.nodup_cons] at h
    rw [combinations2, List.mem_append] at hp
    rcases hp with hp | hp
    · rcases List.mem_map.mp hp with ⟨y, hy, rfl⟩
      intro hxy
      apply h.1
      have hxy' : x = y := hxy
      exact hxy' ▸ hy
    · exact ih h.2 p hp

theorem rel_of_mem_combinations2 {α : Type} {r : α → α → Prop} :
    ∀ {l : List α}, l.Pairwise r → ∀ p ∈ combinations2 l, r p.1 p.2 := by
  intro l
  induction l with
  | nil => intro _ p hp; simp [combinations2] at hp
  | cons x xs ih =>
    intro h p hp
    rw [List.pairwise_cons] at h
    rw [combinations2, List.mem_append] at hp
    rcases hp with hp | hp
    · rcases List.mem_map.mp hp with ⟨y, hy, rfl⟩
      exact h.1 y hy
    · exact ih h.2 p hp

theorem combinations2_pairwise {α : Type} {r : α → α → Prop} :
    ∀ {l : List α}, l.Pairwise r →
      (combinations2 l).Pairwise
        (fun p q => r p.1 q.1 ∨ (p.1 = q.1 ∧ r p.2 q.2)) := by
  intro l
  induction l with
  | nil => intro _; simp [combinations2]
  | cons x xs ih =>
    intro h
    rw [List.pairwise_cons] at h
    rw [combinations2, List.pairwise_append]
    refine ⟨?_, ih h.2, ?_⟩
    · refine List.Pairwise.map (fun y => (x, y)) ?_ h.2
      intro a b hab
      exact Or.inr ⟨rfl, hab⟩
    · intro p hp q hq
      rcases List.mem_map.mp hp with ⟨y, _, rfl⟩
      exact Or.inl (h.1 q.1 (mem_of_mem_combinations2 hq).1)

theorem range_map_getD {α : Type} (d : α) :
    ∀ l : List α, (List.range l.length).map (fun i => l.getD i d) = l
  | [] => rfl
  | a :: l => by
    rw [List.length_cons, List.range_succ_eq_map, List.map_cons, List.map_map]
    have h : ((fun i => (a :: l).getD i d) ∘ Nat.succ) = fun i => l.getD i d := by
      funext i
      simp
    rw [h, List.getD_cons_zero, range_map_getD d l]

/-! ### Helper lemmas: sums of squared differences -/

theorem sum_mul_self_zipWith : ∀ u v : List ℝ,
    (List.zipWith (fun a b => a * b) (List.zipWith (fun a b => a - b) u v)
      (List.zipWith (fun a b => a - b) u v)).sum =
    (List.zipWith (fun a b => (a - b) ^ 2) u v).sum := by
  intro u
  induction u with
  | nil => intro v; simp
  | cons a u ih =>
    intro v
    cases v with
    | nil => simp
    | cons b v =>
      simp only [List.zipWith_cons_cons, List.sum_cons, ih v]
      ring

theorem sum_sq_zipWith_nonneg : ∀ u v : List ℝ,
    0 ≤ (List.zipWith (fun a b => (a - b) ^ 2) u v).sum := by
  intro u
  induction u with
  | nil => intro v; simp
  | cons a u ih =>
    intro v
    cases v with
    | nil => simp
    | cons b v =>
      simp only [List.zipWith_cons_cons, List.sum_cons]
      exact add_nonneg (sq_nonneg _) (ih v)

theorem sum_sq_zipWith_eq_zero_iff : ∀ u v : List ℝ, u.length = v.length →
    ((List.zipWith (fun a b => (a - b) ^ 2) u v).sum = 0 ↔ u = v) := by
  intro u
  induction u with
  | nil =>
    intro v hv
    cases v with
    | nil => simp
    | cons b v => simp at hv
  | cons a u ih =>
    intro v hv
    cases v with
    | nil => simp at hv
    | cons b v =>
      simp only [List.length_cons, Nat.add_right_cancel_iff] at hv
      simp only [List.zipWith_cons_cons, List.sum_cons]
      rw [add_eq_zero_iff_of_nonneg (sq_nonneg _) (sum_sq_zipWith_nonneg u v),
        ih v hv]
      constructor
      · rintro ⟨hab, rfl⟩
        have : a = b := by
          have := pow_eq_zero_iff (n := 2) (by norm_num) |>.mp hab
          linarith [sub_eq_zero.mp this]
        rw [this]
      · intro h
        rcases List.cons_eq_cons.mp h with ⟨rfl, rfl⟩
        simp

/-! ### Helper lemmas: concrete means, standard deviations and
normalizations used by the witnesses -/

theorem mean_one_neg_one : mean [(1 : ℝ), -1] = 0 := by
  norm_num [mean]

theorem std_one_neg_one : std [(1 : ℝ), -1] = 1 := by
  have h : ((([(1 : ℝ), -1]).map (fun x => (x - mean [(1 : ℝ), -1]) ^ 2)).sum /
      (([(1 : ℝ), -1]).length : ℝ)) = 1 := by
    norm_num [mean_one_neg_one]
  rw [std, h, Real.sqrt_one]

theorem normalize_one_neg_one : normalize [(1 : ℝ), -1] = [1, -1] := by
  norm_num [normalize, mean_one_neg_one, std_one_neg_one]

theorem mean_neg_one_one : mean [(-1 : ℝ), 1] = 0 := by
  norm_num [mean]

theorem std_neg_one_one : std [(-1 : ℝ), 1] = 1 := by
  have h : ((([(-1 : ℝ), 1]).map (fun x => (x - mean [(-1 : ℝ), 1]) ^ 2)).sum /
      (([(-1 : ℝ), 1]).length : ℝ)) = 1 := by
    norm_num [mean_neg_one_one]
  rw [std, h, Real.sqrt_one]

theorem normalize_neg_one_one : normalize [(-1 : ℝ), 1] = [-1, 1] := by
  norm_num [normalize, mean_neg_one_one, std_neg_one_one]

theorem mean_three_three : mean [(3 : ℝ), 3] = 3 := by
  norm_num [mean]

theorem std_three_three : std [(3 : ℝ), 3] = 0 := by
  have h : ((([(3 : ℝ), 3]).map (fun x => (x - mean [(3 : ℝ), 3]) ^ 2)).sum /
      (([(3 : ℝ), 3]).length : ℝ)) = 0 := by
    norm_num [mean_three_three]
  rw [std, h, Real.sqrt_zero]

/-! ### Helper lemmas: stability of the sort used by `distance` -/

theorem filter_orderedInsert_key (d : ℝ) (x : ℝ × (String × String))
    (hx : x.1 = d) :
    ∀ l, (List.orderedInsert scoreLE x l).filter (fun y => decide (y.1 = d)) =
      x :: l.filter (fun y => decide (y.1 = d))
  | [] => by simp [List.orderedInsert, hx]
  | b :: l => by
    rw [List.orderedInsert]
    by_cases h : scoreLE x b
    · rw [if_pos h, List.filter_cons_of_pos (by simp [hx])]
    · rw [if_neg h]
      have hb : ¬ b.1 = d := by
        intro hbd
        exact h (le_of_eq (hx.trans hbd.symm))
      rw [List.filter_cons_of_neg (by simp [hb]),
        filter_orderedInsert_key d x hx l, List.filter_cons_of_neg (by simp [hb])]

theorem filter_orderedInsert_key_ne (d : ℝ) (x : ℝ × (String × String))
    (hx : ¬ x.1 = d) :
    ∀ l, (List.orderedInsert scoreLE x l).filter (fun y => decide (y.1 = d)) =
      l.filter (fun y => decide (y.1 = d))
  | [] => by simp [List.orderedInsert, hx]
  | b :: l => by
    rw [List.orderedInsert]
    by_cases h : scoreLE x b
    · rw [if_pos h, List.filter_cons_of_neg (by simp [hx])]
    · rw [if_neg h]
      by_cases hb : b.1 = d
      · rw [List.filter_cons_of_pos (by simp [hb]),
          filter_orderedInsert_key_ne d x hx l,
          List.filter_cons_of_pos (by simp [hb])]
      · rw [List.filter_cons_of_neg (by simp [hb]),
          filter_orderedInsert_key_ne d x hx l,
          List.filter_cons_of_neg (by simp [hb])]

theorem filter_insertionSort_key (d : ℝ) :
    ∀ l : List (ℝ × (String × String)),
      (List.insertionSort scoreLE l).filter (fun y => decide (y.1 = d)) =
        l.filter (fun y => decide (y.1 = d))
  | [] => rfl
  | a :: l => by
    rw [List.insertionSort]
    by_cases h : a.1 = d
    · rw [filter_orderedInsert_key d a h (List.insertionSort scoreLE l),
        filter_insertionSort_key d l, List.filter_cons_of_pos (by simp [h])]
    · rw [filter_orderedInsert_key_ne d a h (List.insertionSort scoreLE l),
        filter_insertionSort_key d l, List.filter_cons_of_neg (by simp [h])]

theorem distance_eq_take (df : DataFrame) (n : ℤ) (hn : 0 ≤ n) :
    distance df n = ((sortedScores df).take n.toNat).map Prod.snd := by
  rw [distance]
  by_cases h : ((sortedScores df).length : ℤ) < n
  · rw [if_pos h, List.take_of_length_le (by omega)]
  · rw [if_neg h, pySliceTo, if_neg (by omega)]

theorem combinations2_eq_nil_of_length_lt_two {α : Type} {l : List α}
    (h : l.length < 2) : combinations2 l = [] := by
  rcases l with _ | ⟨a, _ | ⟨b, t⟩⟩
  · rfl
  · rfl
  · rw [List.length_cons, List.length_cons] at h
    omega

/-! ### Helper lemmas: concrete evaluations of the screeners -/

theorem getCol_dfABC_A : getCol dfABC "A" = [1, -1] := rfl

theorem getCol_dfABC_B : getCol dfABC "B" = [1, -1] := rfl

theorem getCol_dfABC_C : getCol dfABC "C" = [-1, 1] := rfl

theorem pairScore_same : pairScore [(1 : ℝ), -1] [(1 : ℝ), -1] = 0 := by
  rw [pairScore, normalize_one_neg_one]
  norm_num

theorem pairScore_opposite : pairScore [(1 : ℝ), -1] [(-1 : ℝ), 1] = 8 := by
  rw [pairScore, normalize_one_neg_one, normalize_neg_one_one]
  norm_num

theorem dfAB_no_constant_column : ∀ c ∈ dfAB.cols, std c.2 ≠ 0 := by
  intro c hc
  simp only [dfAB, List.mem_cons, List.not_mem_nil, or_false] at hc
  rcases hc with hc | hc
  · rw [hc]
    rw [std_one_neg_one]
    norm_num
  · rw [hc]
    rw [std_neg_one_one]
    norm_num

theorem stockPairs_dfABC :
    stockPairs dfABC = [("A", "B"), ("A", "C"), ("B", "C")] := rfl

theorem scoresToPairs_dfABC :
    scoresToPairs dfABC =
      [((0 : ℝ), ("A", "B")), ((8 : ℝ), ("A", "C")), ((8 : ℝ), ("B", "C"))] := by
  rw [scoresToPairs_eq_map, stockPairs_dfABC]
  simp only [List.map_cons, List.map_nil, distEntry]
  rw [getCol_dfABC_A, getCol_dfABC_B, getCol_dfABC_C, pairScore_same,
    pairScore_opposite]

theorem sortedScores_dfABC :
    sortedScores dfABC =
      [((0 : ℝ), ("A", "B")), ((8 : ℝ), ("A", "C")), ((8 : ℝ), ("B", "C"))] := by
  rw [sortedScores, scoresToPairs_dfABC]
  simp only [List.insertionSort, List.orderedInsert]
  rw [if_pos (by norm_num [scoreLE])]
  simp only [List.orderedInsert]
  rw [if_pos (by norm_num [scoreLE])]

/-! ### Helper lemmas: list sums as indexed sums, and the least-squares
properties of the closed-form regression coefficients -/

theorem sum_map_eq_sum_range (f : ℝ → ℝ) :
    ∀ x : List ℝ, (x.map f).sum = ∑ i in Finset.range x.length, f (x.getD i 0)
  | [] => by simp
  | a :: x => by
    rw [List.map_cons, List.sum_cons, sum_map_eq_sum_range f x, List.length_cons,
      Finset.sum_range_succ']
    simp [add_comm]

theorem sum_eq_sum_range (x : List ℝ) :
    x.sum = ∑ i in Finset.range x.length, x.getD i 0 := by
  have h := sum_map_eq_sum_range id x
  rw [List.map_id] at h
  exact h

theorem sum_zipWith_eq_sum_range (f : ℝ → ℝ → ℝ) :
    ∀ y x : List ℝ, y.length = x.length →
      (List.zipWith f y x).sum =
        ∑ i in Finset.range x.length, f (y.getD i 0) (x.getD i 0) := by
  intro y
  induction y with
  | nil =>
    intro x hx
    cases x with
    | nil => simp
    | cons b x => simp at hx
  | cons a y ih =>
    intro x hx
    cases x with
    | nil => simp at hx
    | cons b x =>
      rw [List.length_cons, List.length_cons] at hx
      rw [List.zipWith_cons_cons, List.sum_cons, ih x (by omega),
        List.length_cons, Finset.sum_range_succ']
      simp [add_comm]

theorem ols_finset_key (n : ℕ) (Y X : ℕ → ℝ) (μy μx S2 S1 β α : ℝ)
    (hn : (n : ℝ) ≠ 0)
    (hμy : μy = (∑ i in Finset.range n, Y i) / n)
    (hμx : μx = (∑ i in Finset.range n, X i) / n)
    (hS2 : S2 = ∑ i in Finset.range n, (X i - μx) ^ 2)
    (hS1 : S1 = ∑ i in Finset.range n, (Y i - μy) * (X i - μx))
    (hS : S2 ≠ 0) (hβ : β = S1 / S2) (hα : α = μy - β * μx) :
    (∑ i in Finset.range n, (Y i - (α + β * X i))) = 0
      ∧ (∑ i in Finset.range n, (Y i - (α + β * X i)) * X i) = 0
      ∧ ∀ a b : ℝ,
          (∑ i in Finset.range n, (Y i - (α + β * X i)) ^ 2) ≤
            ∑ i in Finset.range n, (Y i - (a + b * X i)) ^ 2 := by
  have hYc : ∑ i in Finset.range n, (Y i - μy) = 0 := by
    rw [Finset.sum_sub_distrib, Finset.sum_const, Finset.card_range,
      nsmul_eq_mul, hμy]
    field_simp
  have hXc : ∑ i in Finset.range n, (X i - μx) = 0 := by
    rw [Finset.sum_sub_distrib, Finset.sum_const, Finset.card_range,
      nsmul_eq_mul, hμx]
    field_simp
  have hid : ∀ i, Y i - (α + β * X i) = (Y i - μy) - β * (X i - μx) := by
    intro i
    rw [hα]
    ring
  have hE1 : (∑ i in Finset.range n, (Y i - (α + β * X i))) = 0 := by
    calc ∑ i in Finset.range n, (Y i - (α + β * X i))
        = ∑ i in Finset.range n, ((Y i - μy) - β * (X i - μx)) :=
          Finset.sum_congr rfl (fun i _ => hid i)
      _ = (∑ i in Finset.range n, (Y i - μy)) -
            β * ∑ i in Finset.range n, (X i - μx) := by
          rw [Finset.sum_sub_distrib, Finset.mul_sum]
      _ = 0 := by rw [hYc, hXc]; ring
  have hE2 : (∑ i in Finset.range n, (Y i - (α + β * X i)) * X i) = 0 := by
    have h1 : ∀ i, (Y i - (α + β * X i)) * X i =
        (Y i - μy) * (X i - μx) - β * (X i - μx) ^ 2 +
          μx * (Y i - (α + β * X i)) := by
      intro i
      rw [hα]
      ring
    calc ∑ i in Finset.range n, (Y i - (α + β * X i)) * X i
        = ∑ i in Finset.range n,
            ((Y i - μy) * (X i - μx) - β * (X i - μx) ^ 2 +
              μx * (Y i - (α + β * X i))) :=
          Finset.sum_congr rfl (fun i _ => h1 i)
      _ = ((∑ i in Finset.range n, (Y i - μy) * (X i - μx)) -
            β * ∑ i in Finset.range n, (X i - μx) ^ 2) +
            μx * ∑ i in Finset.range n, (Y i - (α + β * X i)) := by
          rw [Finset.sum_add_distrib, Finset.sum_sub_distrib, Finset.mul_sum,
            Finset.mul_sum]
      _ = (S1 - β * S2) + μx * 0 := by rw [← hS1, ← hS2, hE1]
      _ = 0 := by rw [hβ]; field_simp
  refine ⟨hE1, hE2, ?_⟩
  intro a b
  have h2 : ∀ i, (Y i - (a + b * X i)) ^ 2 =
      ((Y i - (α + β * X i)) ^ 2 + ((α - a) + (β - b) * X i) ^ 2) +
        ((2 * (α - a)) * (Y i - (α + β * X i)) +
          (2 * (β - b)) * ((Y i - (α + β * X i)) * X i)) := by
    intro i
    ring
  have hsum : ∑ i in Finset.range n, (Y i - (a + b * X i)) ^ 2 =
      (∑ i in Finset.range n, (Y i - (α + β * X i)) ^ 2) +
        ∑ i in Finset.range n, ((α - a) + (β - b) * X i) ^ 2 := by
    calc ∑ i in Finset.range n, (Y i - (a + b * X i)) ^ 2
        = ∑ i in Finset.range n,
            (((Y i - (α + β * X i)) ^ 2 + ((α - a) + (β - b) * X i) ^ 2) +
              ((2 * (α - a)) * (Y i - (α + β * X i)) +
                (2 * (β - b)) * ((Y i - (α + β * X i)) * X i))) :=
          Finset.sum_congr rfl (fun i _ => h2 i)
      _ = ((∑ i in Finset.range n, (Y i - (α + β * X i)) ^ 2) +
            ∑ i in Finset.range n, ((α - a) + (β - b) * X i) ^ 2) +
            ((2 * (α - a)) * ∑ i in Finset.range n, (Y i - (α + β * X i)) +
              (2 * (β - b)) *
                ∑ i in Finset.range n, (Y i - (α + β * X i)) * X i) := by
          rw [Finset.sum_add_distrib, Finset.sum_add_distrib,
            Finset.sum_add_distrib, Finset.mul_sum, Finset.mul_sum]
      _ = (∑ i in Finset.range n, (Y i - (α + β * X i)) ^ 2) +
            ∑ i in Finset.range n, ((α - a) + (β - b) * X i) ^ 2 := by
          rw [hE1, hE2]
          ring
  rw [hsum]
  have hd : 0 ≤ ∑ i in Finset.range n, ((α - a) + (β - b) * X i) ^ 2 :=
    Finset.sum_nonneg (fun i _ => sq_nonneg _)
  linarith

theorem sxx_one_neg_one : sxx [(1 : ℝ), -1] = 2 := by
  norm_num [sxx, mean_one_neg_one]

/-! ### The claims -/

/-- Claim C1: for every input table with `N` columns the shared pair
enumeration used by both screeners produces exactly `C(N,2)` pairs
(conjunct 1), namely the positional pairs `(i, j)` with `i < j < N` in
lexicographic order of positions (conjuncts 2-4); under distinct column
names there are no duplicate pairs and no self-pairs (conjuncts 5-6);
for `N < 2` the enumeration is empty and no error is raised (conjunct
7, the enumeration being a total function); and the distance screener
scores exactly this enumeration (conjunct 8), while `coint` folds over
it by definition (`cointLoop` applied to `stockPairs`). -/
theorem c1_pair_enumeration (df : DataFrame) (h : (columns df).Nodup) :
    (stockPairs df).length =
        (columns df).length * ((columns df).length - 1) / 2
      ∧ stockPairs df =
        (combinations2 (List.range (columns df).length)).map
          (fun ij => ((columns df).getD ij.1 "", (columns df).getD ij.2 ""))
      ∧ (combinations2 (List.range (columns df).length)).Pairwise
          (fun p q => p.1 < q.1 ∨ (p.1 = q.1 ∧ p.2 < q.2))
      ∧ (∀ p ∈ combinations2 (List.range (columns df).length),
          p.1 < p.2 ∧ p.2 < (columns df).length)
      ∧ (stockPairs df).Nodup
      ∧ (∀ p ∈ stockPairs df, p.1 ≠ p.2)
      ∧ ((columns df).length < 2 → stockPairs df = [])
      ∧ (scoresToPairs df).length = (stockPairs df).length := by
  refine ⟨?_, ?_, ?_, ?_, ?_, ?_, ?_, ?_⟩
  · rw [stockPairs, combinations2_length, Nat.choose_two_right]
  · rw [stockPairs]
    conv_lhs => rw [← range_map_getD "" (columns df)]
    rw [combinations2_map]
    apply List.map_congr_left
    intro ij _
    rfl
  · exact combinations2_pairwise (List.pairwise_lt_range _)
  · intro p hp
    refine ⟨rel_of_mem_combinations2 (List.pairwise_lt_range _) p hp, ?_⟩
    exact List.mem_range.mp (mem_of_mem_combinations2 hp).2
  · exact nodup_combinations2 h
  · exact fst_ne_snd_of_mem_combinations2 h
  · intro hN
    show combinations2 (columns df) = []
    rcases hc : columns df with _ | ⟨a, _ | ⟨b, t⟩⟩
    · rfl
    · rfl
    · rw [hc] at hN
      simp at hN
      omega
  · rw [scoresToPairs_eq_map, List.length_map]

/-- Witness for C1 at the concrete two-column table `dfAB`. -/
theorem c1_pair_enumeration_witness :
    (columns dfAB).Nodup
      ∧ ((stockPairs dfAB).length =
            (columns dfAB).length * ((columns dfAB).length - 1) / 2
          ∧ stockPairs dfAB =
            (combinations2 (List.range (columns dfAB).length)).map
              (fun ij =>
                ((columns dfAB).getD ij.1 "", (columns dfAB).getD ij.2 ""))
          ∧ (combinations2 (List.range (columns dfAB).length)).Pairwise
              (fun p q => p.1 < q.1 ∨ (p.1 = q.1 ∧ p.2 < q.2))
          ∧ (∀ p ∈ combinations2 (List.range (columns dfAB).length),
              p.1 < p.2 ∧ p.2 < (columns dfAB).length)
          ∧ (stockPairs dfAB).Nodup
          ∧ (∀ p ∈ stockPairs dfAB, p.1 ≠ p.2)
          ∧ ((columns dfAB).length < 2 → stockPairs dfAB = [])
          ∧ (scoresToPairs dfAB).length = (stockPairs dfAB).length) :=
  ⟨by decide, c1_pair_enumeration dfAB (by decide)⟩

theorem filterMap_if_sublist_map {α β : Type} (c : α → Bool) (g : α → β) :
    ∀ l : List α,
      List.Sublist (l.filterMap (fun a => if c a then some (g a) else none))
        (l.map g)
  | [] => by simp
  | a :: l => by
    by_cases h : c a
    · simpa [h] using List.Sublist.cons₂ (g a) (filterMap_if_sublist_map c g l)
    · simpa [h] using List.Sublist.cons (g a) (filterMap_if_sublist_map c g l)

/-- Claim C2: a pair's triple is in the output of the cointegration
screener exactly when its computed p-value compares strictly below
`sig_level` (conjunct 1); the Boolean comparison on a finite p-value is
literally the strict inequality `v < sig_level`, so a p-value equal to
`sig_level` is excluded (conjunct 2); and the output is a sublist of
the full enumeration-order triple list, hence appears in
pair-enumeration order, not sorted by p-value (conjunct 3). -/
theorem c2_coint_filter_and_order (lib : StatLib) (df : DataFrame)
    (intercept : Bool) (sigLevel : ℝ) (s1 s2 : String)
    (hmem : (s1, s2) ∈ stockPairs df) :
    ((s1, s2, cointPairPValue lib intercept (getCol df s1) (getCol df s2)) ∈
        coint lib df intercept sigLevel ↔
      pvalLt (cointPairPValue lib intercept (getCol df s1) (getCol df s2))
        sigLevel = true)
      ∧ (∀ v : ℝ, pvalLt (some v) sigLevel = true ↔ v < sigLevel)
      ∧ List.Sublist (coint lib df intercept sigLevel)
        ((stockPairs df).map
          (fun pr =>
            (pr.1, pr.2,
              cointPairPValue lib intercept (getCol df pr.1) (getCol df pr.2)))) := by
  refine ⟨?_, ?_, ?_⟩
  · rw [coint_eq_filterMap]
    constructor
    · intro hv
      rcases List.mem_filterMap.mp hv with ⟨⟨a1, a2⟩, _, hf⟩
      rw [cointEntry] at hf
      by_cases hc :
          pvalLt (cointPairPValue lib intercept (getCol df a1) (getCol df a2))
            sigLevel = true
      · rw [if_pos hc] at hf
        rcases Option.some_inj.mp hf with ⟨rfl, rfl, _⟩
        exact hc
      · rw [if_neg hc] at hf
        exact absurd hf (by simp)
    · intro hlt
      refine List.mem_filterMap.mpr ⟨(s1, s2), hmem, ?_⟩
      rw [cointEntry, if_pos hlt]
  · intro v
    simp [pvalLt]
  · rw [coint_eq_filterMap]
    exact filterMap_if_sublist_map _ _ (stockPairs df)

/-- Witness for C2 at the two-column table `dfAB` with the constant
oracle (p-value `0`) and significance level `1/2`. -/
theorem c2_coint_filter_and_order_witness :
    ("A", "B") ∈ stockPairs dfAB
      ∧ ((("A", "B",
            cointPairPValue constLib true (getCol dfAB "A") (getCol dfAB "B")) ∈
            coint constLib dfAB true (1 / 2) ↔
          pvalLt
            (cointPairPValue constLib true (getCol dfAB "A") (getCol dfAB "B"))
            (1 / 2) = true)
          ∧ (∀ v : ℝ, pvalLt (some v) (1 / 2) = true ↔ v < 1 / 2)
          ∧ List.Sublist (coint constLib dfAB true (1 / 2))
            ((stockPairs dfAB).map
              (fun pr =>
                (pr.1, pr.2,
                  cointPairPValue constLib true (getCol dfAB pr.1)
                    (getCol dfAB pr.2))))) :=
  ⟨by decide, c2_coint_filter_and_order constLib dfAB true (1 / 2) "A" "B" (by decide)⟩

/-- Claim C8: calling either screener twice with the same arguments
yields identical output (conjuncts 3-4, the embeddings being functions
of their arguments only, as the source has no global mutable state),
and neither screening loop mutates the input table: the dataframe
component threaded through both loops is returned unchanged (conjuncts
1-2). -/
theorem c8_idempotent_and_no_mutation (lib : StatLib) (df : DataFrame)
    (intercept : Bool) (sigLevel : ℝ) (n : ℤ) :
    (cointLoop lib intercept sigLevel (stockPairs df) (df, [])).1 = df
      ∧ (distLoop (stockPairs df) (df, [])).1 = df
      ∧ coint lib df intercept sigLevel = coint lib df intercept sigLevel
      ∧ distance df n = distance df n := by
  refine ⟨?_, ?_, rfl, rfl⟩
  · rw [cointLoop_eq]
  · rw [distLoop_eq]

/-- Claim C10: when the statistical test for a pair yields NaN, `coint`
raises nothing (the embedding is a total function) and the Python
comparison `p_value < sig_level` is `False` (conjunct 1), so the pair
is omitted from the result list exactly as a non-significant pair would
be (conjunct 2). -/
theorem c10_nan_pvalue_silently_omitted (lib : StatLib) (df : DataFrame)
    (intercept : Bool) (sigLevel : ℝ) (s1 s2 : String)
    (h : cointPairPValue lib intercept (getCol df s1) (getCol df s2) = none) :
    pvalLt (cointPairPValue lib intercept (getCol df s1) (getCol df s2))
        sigLevel = false
      ∧ ∀ v : PVal, (s1, s2, v) ∉ coint lib df intercept sigLevel := by
  constructor
  · rw [h]
    rfl
  · intro v hv
    rw [coint_eq_filterMap] at hv
    rcases List.mem_filterMap.mp hv with ⟨⟨a1, a2⟩, _, hf⟩
    rw [cointEntry] at hf
    by_cases hc :
        pvalLt (cointPairPValue lib intercept (getCol df a1) (getCol df a2))
          sigLevel = true
    · rw [if_pos hc] at hf
      rcases Option.some_inj.mp hf with ⟨rfl, rfl, _⟩
      rw [h] at hc
      exact absurd hc (by simp [pvalLt])
    · rw [if_neg hc] at hf
      exact absurd hf (by simp)

/-- Witness for C10 at the two-column table `dfAB` with the oracle
whose tests always return NaN. -/
theorem c10_nan_pvalue_silently_omitted_witness :
    cointPairPValue nanLib true (getCol dfAB "A") (getCol dfAB "B") = none
      ∧ (pvalLt (cointPairPValue nanLib true (getCol dfAB "A") (getCol dfAB "B"))
            (1 / 100) = false
          ∧ ∀ v : PVal, ("A", "B", v) ∉ coint nanLib dfAB true (1 / 100)) :=
  ⟨rfl, c10_nan_pvalue_silently_omitted nanLib dfAB true (1 / 100) "A" "B" rfl⟩

/-- Claim C4: for series of equal length with nonzero standard
deviation (the regime in which floating-point normalization is
well defined; a zero standard deviation instead produces NaN, treated
in C7), the distance screener's per-pair score equals the sum of
squared elementwise differences of the two independently z-score
normalized series (conjunct 1: `normalize` uses only the series' own
mean and own population standard deviation by definition), the score is
non-negative (conjunct 2), and it is zero exactly when the two
normalized series are identical (conjunct 3). -/
theorem c4_score_is_squared_distance (p1 p2 : List ℝ)
    (hlen : p1.length = p2.length) (h1 : std p1 ≠ 0) (h2 : std p2 ≠ 0) :
    pairScore p1 p2 =
        (List.zipWith (fun a b => (a - b) ^ 2) (normalize p1) (normalize p2)).sum
      ∧ 0 ≤ pairScore p1 p2
      ∧ (pairScore p1 p2 = 0 ↔ normalize p1 = normalize p2) := by
  have hsq :
      pairScore p1 p2 =
        (List.zipWith (fun a b => (a - b) ^ 2) (normalize p1)
          (normalize p2)).sum :=
    sum_mul_self_zipWith (normalize p1) (normalize p2)
  have hnorm : (normalize p1).length = (normalize p2).length := by
    rw [normalize, normalize, List.length_map, List.length_map, hlen]
  refine ⟨hsq, ?_, ?_⟩
  · rw [hsq]
    exact sum_sq_zipWith_nonneg _ _
  · rw [hsq]
    exact sum_sq_zipWith_eq_zero_iff _ _ hnorm

/-- Witness for C4 at the series `[1, -1]` and `[-1, 1]` (both with
standard deviation `1`). -/
theorem c4_score_is_squared_distance_witness :
    (([(1 : ℝ), -1]).length = ([(-1 : ℝ), 1]).length
        ∧ std [(1 : ℝ), -1] ≠ 0 ∧ std [(-1 : ℝ), 1] ≠ 0)
      ∧ (pairScore [(1 : ℝ), -1] [(-1 : ℝ), 1] =
            (List.zipWith (fun a b => (a - b) ^ 2) (normalize [(1 : ℝ), -1])
              (normalize [(-1 : ℝ), 1])).sum
          ∧ 0 ≤ pairScore [(1 : ℝ), -1] [(-1 : ℝ), 1]
          ∧ (pairScore [(1 : ℝ), -1] [(-1 : ℝ), 1] = 0 ↔
              normalize [(1 : ℝ), -1] = normalize [(-1 : ℝ), 1])) :=
  ⟨⟨rfl, by rw [std_one_neg_one]; norm_num, by rw [std_neg_one_one]; norm_num⟩,
    c4_score_is_squared_distance [(1 : ℝ), -1] [(-1 : ℝ), 1] rfl
      (by rw [std_one_neg_one]; norm_num) (by rw [std_neg_one_one]; norm_num)⟩

/-- Claim C5: for a table without constant columns (every series has
nonzero population standard deviation — the regime in which
floating-point normalization yields real scores, and exactly where the
real-division embedding is faithful; on a constant column numpy instead
produces NaN scores and an implementation-defined NaN-key ordering,
treated structurally in C7) and `n ≥ 1`, the distance screener returns
the pair identities (and nothing else — the output type carries no
distances) of the first `n` entries of the stably sorted score list
(conjunct 1), so its length is `min n C(N,2)` (conjunct 2); the sorted
score list is ascending by score (conjunct 3), is a permutation of the
enumerated scores (conjunct 4), breaks score ties stably in
pair-enumeration order (conjunct 5: for every score value, the entries
with that score appear in the same order as in the enumeration), and
every returned entry's score is at most every discarded entry's score
(conjunct 6). -/
theorem c5_distance_returns_sorted_top_n (df : DataFrame) (n : ℤ)
    (hn : 1 ≤ n) (hstd : ∀ c ∈ df.cols, std c.2 ≠ 0) :
    distance df n = ((sortedScores df).take n.toNat).map Prod.snd
      ∧ (distance df n).length = min n.toNat (stockPairs df).length
      ∧ (sortedScores df).Pairwise scoreLE
      ∧ List.Perm (sortedScores df) (scoresToPairs df)
      ∧ (∀ d : ℝ, (sortedScores df).filter (fun y => decide (y.1 = d)) =
          (scoresToPairs df).filter (fun y => decide (y.1 = d)))
      ∧ (∀ x ∈ (sortedScores df).take n.toNat,
          ∀ y ∈ (sortedScores df).drop n.toNat, x.1 ≤ y.1) := by
  have htake := distance_eq_take df n (by omega)
  have hsorted : (sortedScores df).Pairwise scoreLE :=
    List.sorted_insertionSort scoreLE (scoresToPairs df)
  refine ⟨htake, ?_, hsorted, List.perm_insertionSort scoreLE _,
    fun d => filter_insertionSort_key d (scoresToPairs df), ?_⟩
  · rw [htake, List.length_map, List.length_take, sortedScores,
      List.length_insertionSort, scoresToPairs_eq_map, List.length_map]
  · have hsplit := List.take_append_drop n.toNat (sortedScores df)
    rw [← hsplit] at hsorted
    exact fun x hx y hy => (List.pairwise_append.mp hsorted).2.2 x hx y hy

/-- Witness for C5 at the two-column table `dfAB` (both columns with
standard deviation `1`) with `n = 1`. -/
theorem c5_distance_returns_sorted_top_n_witness :
    ((1 : ℤ) ≤ 1 ∧ ∀ c ∈ dfAB.cols, std c.2 ≠ 0)
      ∧ (distance dfAB 1 = ((sortedScores dfAB).take (1 : ℤ).toNat).map Prod.snd
          ∧ (distance dfAB 1).length = min (1 : ℤ).toNat (stockPairs dfAB).length
          ∧ (sortedScores dfAB).Pairwise scoreLE
          ∧ List.Perm (sortedScores dfAB) (scoresToPairs dfAB)
          ∧ (∀ d : ℝ, (sortedScores dfAB).filter (fun y => decide (y.1 = d)) =
              (scoresToPairs dfAB).filter (fun y => decide (y.1 = d)))
          ∧ (∀ x ∈ (sortedScores dfAB).take (1 : ℤ).toNat,
              ∀ y ∈ (sortedScores dfAB).drop (1 : ℤ).toNat, x.1 ≤ y.1)) :=
  ⟨⟨by decide, dfAB_no_constant_column⟩,
    c5_distance_returns_sorted_top_n dfAB 1 (by decide) dfAB_no_constant_column⟩

/-- Counterexample to C6: the source performs no input validation and
defines no `InvalidInputError`.  With `sig_level = 2` (outside `(0,1)`)
the cointegration screener runs to completion and returns a full,
non-empty result instead of raising; with a one-column table the
distance screener returns `[]` instead of raising; with `n = 0 ≤ 0` the
distance screener likewise returns `[]` instead of raising. -/
theorem c6_counterexample :
    coint constLib dfAB true 2 = [("A", "B", some 0)]
      ∧ distance dfSingle 10 = []
      ∧ distance dfAB 0 = [] := by
  refine ⟨?_, rfl, rfl⟩
  rw [coint_eq_filterMap]
  have hsp : stockPairs dfAB = [("A", "B")] := rfl
  rw [hsp]
  simp only [List.filterMap_cons, List.filterMap_nil, cointEntry,
    cointPairPValue, constLib, pvalLt]
  norm_num

/-- Claim C6 as amended: the screeners validate nothing.  A table with
fewer than 2 columns yields an empty pair enumeration and an empty
result from both screeners, with no error raised (the embeddings are
total functions, matching the raise-free source); out-of-range
`sig_level` and non-positive `n` are likewise processed normally, as
the counterexample shows concretely. -/
theorem c6_amended_no_validation (lib : StatLib) (df : DataFrame)
    (intercept : Bool) (sigLevel : ℝ) (n : ℤ)
    (h : (columns df).length < 2) :
    stockPairs df = []
      ∧ coint lib df intercept sigLevel = []
      ∧ distance df n = [] := by
  have hsp : stockPairs df = [] := combinations2_eq_nil_of_length_lt_two h
  have hs : sortedScores df = [] := by
    rw [sortedScores, scoresToPairs_eq_map, hsp]
    rfl
  refine ⟨hsp, ?_, ?_⟩
  · rw [coint_eq_filterMap, hsp]
    rfl
  · rw [distance, hs]
    simp [pySliceTo]

/-- Witness for the amended C6 at the one-column table. -/
theorem c6_amended_no_validation_witness :
    (columns dfSingle).length < 2
      ∧ (stockPairs dfSingle = []
          ∧ coint constLib dfSingle true (1 / 100) = []
          ∧ distance dfSingle 10 = []) :=
  ⟨by decide, c6_amended_no_validation constLib dfSingle true (1 / 100) 10 (by decide)⟩

/-- Counterexample to C7: the source defines no `DegenerateSeriesError`
and never skips a pair.  On the table `dfConst`, whose column `B` is
constant (standard deviation `0`, so its normalization divides by
zero — NaN in the implementation), the distance screener returns the
pair `("A", "B")` containing the degenerate column instead of
reporting it and skipping it. -/
theorem c7_counterexample :
    std [(3 : ℝ), 3] = 0 ∧ distance dfConst 10 = [("A", "B")] := by
  refine ⟨std_three_three, ?_⟩
  have hs : sortedScores dfConst = [distEntry dfConst ("A", "B")] := rfl
  rw [distance, hs]
  norm_num [distEntry]

/-- Claim C7 as amended: a constant column triggers no error and no
skipping.  For every table, every enumerated pair — including every
pair containing a constant column — is scored and kept: the scored
list projects onto exactly the full pair enumeration, and each pair
appears in it with its (possibly degenerate) score. -/
theorem c7_amended_no_skipping (df : DataFrame) :
    (scoresToPairs df).map Prod.snd = stockPairs df
      ∧ ∀ p ∈ stockPairs df,
        (pairScore (getCol df p.1) (getCol df p.2), p) ∈ scoresToPairs df := by
  constructor
  · rw [scoresToPairs_eq_map, List.map_map]
    have h : (Prod.snd ∘ distEntry df) = id := by
      funext pr
      simp [distEntry]
    rw [h, List.map_id]
  · intro p hp
    rw [scoresToPairs_eq_map]
    refine List.mem_map.mpr ⟨p, hp, ?_⟩
    rw [distEntry]

/-- Counterexample to C9: with `n = -1 ≤ 0` on a three-column table the
distance screener does not return the empty list: Python's negative
slice `scores_to_pairs[:-1]` keeps all but the last sorted entry, so
two pairs are returned. -/
theorem c9_counterexample :
    distance dfABC (-1) = [("A", "B"), ("A", "C")]
      ∧ distance dfABC (-1) ≠ [] := by
  have h : distance dfABC (-1) = [("A", "B"), ("A", "C")] := by
    rw [distance, sortedScores_dfABC, pySliceTo]
    norm_num
  exact ⟨h, by rw [h]; simp⟩

/-- Claim C9 as amended: for `n = 0` the distance screener returns the
empty list without error, but for `n < 0` it instead returns all but
the last `|n|` entries of the sorted pair ranking (Python negative
slice semantics), which is non-empty whenever `|n| < C(N,2)`. -/
theorem c9_amended_negative_slice (df : DataFrame) (n : ℤ) (hn : n < 0) :
    distance df n =
        ((sortedScores df).take ((sortedScores df).length - n.natAbs)).map
          Prod.snd
      ∧ distance df 0 = [] := by
  constructor
  · rw [distance, if_neg (by omega), pySliceTo, if_pos hn]
  · rw [distance, if_neg (by omega), pySliceTo]
    norm_num

/-- Witness for the amended C9 at the three-column table with
`n = -1`. -/
theorem c9_amended_negative_slice_witness :
    (-1 : ℤ) < 0
      ∧ (distance dfABC (-1) =
            ((sortedScores dfABC).take
              ((sortedScores dfABC).length - (-1 : ℤ).natAbs)).map Prod.snd
          ∧ distance dfABC 0 = []) :=
  ⟨by decide, c9_amended_negative_slice dfABC (-1) (by decide)⟩

/-- Claim C3: for every pair of equal-length series with a
non-degenerate regressor, the cointegration screener's p-value with
`intercept = true` is the augmented unit-root (ADF) test's p-value on
the residual series of the regression of the first series on the second
plus an intercept (conjunct 1; `olsResid` is the dependent series minus
the fitted values by definition); that regression really is ordinary
least squares: its residuals sum to zero (conjunct 3, the effect of the
intercept term) and its coefficients minimise the sum of squared errors
over all affine fits (conjunct 4); with `intercept = false` the p-value
is the direct library cointegration test on the raw pair with
constant-only trend (conjunct 2, with that test modelled as the
`smtsCoint` oracle). -/
theorem c3_ols_adf_pipeline (lib : StatLib) (y x : List ℝ)
    (hlen : y.length = x.length) (hsxx : sxx x ≠ 0) :
    cointPairPValue lib true y x = lib.adfuller (olsResid y x)
      ∧ cointPairPValue lib false y x = lib.smtsCoint y x
      ∧ (olsResid y x).sum = 0
      ∧ ∀ a b : ℝ, sse y x (olsAlpha y x) (olsBeta y x) ≤ sse y x a b := by
  have hx0 : x ≠ [] := by
    intro h
    apply hsxx
    rw [h]
    simp [sxx]
  have hnn : x.length ≠ 0 := fun h => hx0 (List.length_eq_zero.mp h)
  have hn : ((x.length : ℝ)) ≠ 0 := Nat.cast_ne_zero.mpr hnn
  have hmean_x :
      mean x = (∑ i in Finset.range x.length, x.getD i 0) / x.length := by
    rw [mean, sum_eq_sum_range]
  have hmean_y :
      mean y = (∑ i in Finset.range x.length, y.getD i 0) / x.length := by
    rw [mean, sum_eq_sum_range, hlen]
  have hsxx_eq :
      sxx x = ∑ i in Finset.range x.length, (x.getD i 0 - mean x) ^ 2 :=
    sum_map_eq_sum_range _ x
  have hsxy_eq : sxy y x =
      ∑ i in Finset.range x.length,
        (y.getD i 0 - mean y) * (x.getD i 0 - mean x) :=
    sum_zipWith_eq_sum_range _ y x hlen
  obtain ⟨hE1, _, hopt⟩ :=
    ols_finset_key x.length (fun i => y.getD i 0) (fun i => x.getD i 0)
      (mean y) (mean x) (sxx x) (sxy y x) (olsBeta y x) (olsAlpha y x)
      hn hmean_y hmean_x hsxx_eq hsxy_eq hsxx rfl rfl
  have hresid : olsResid y x =
      List.zipWith (fun u v => u - (olsAlpha y x + olsBeta y x * v)) y x := by
    rw [olsResid, fittedValues, List.zipWith_map_right]
  have hsum_resid : (olsResid y x).sum =
      ∑ i in Finset.range x.length,
        (y.getD i 0 - (olsAlpha y x + olsBeta y x * x.getD i 0)) := by
    rw [hresid]
    exact sum_zipWith_eq_sum_range _ y x hlen
  have hsse : ∀ a b : ℝ, sse y x a b =
      ∑ i in Finset.range x.length, (y.getD i 0 - (a + b * x.getD i 0)) ^ 2 :=
    fun a b => sum_zipWith_eq_sum_range _ y x hlen
  refine ⟨rfl, rfl, ?_, ?_⟩
  · rw [hsum_resid]
    exact hE1
  · intro a b
    rw [hsse, hsse]
    exact hopt a b

/-- Witness for C3 at the series `y = [1, 2]`, `x = [1, -1]` (for which
`sxx x = 2 ≠ 0`) with the constant oracle. -/
theorem c3_ols_adf_pipeline_witness :
    (([(1 : ℝ), 2]).length = ([(1 : ℝ), -1]).length ∧ sxx [(1 : ℝ), -1] ≠ 0)
      ∧ (cointPairPValue constLib true [(1 : ℝ), 2] [(1 : ℝ), -1] =
            constLib.adfuller (olsResid [(1 : ℝ), 2] [(1 : ℝ), -1])
          ∧ cointPairPValue constLib false [(1 : ℝ), 2] [(1 : ℝ), -1] =
            constLib.smtsCoint [(1 : ℝ), 2] [(1 : ℝ), -1]
          ∧ (olsResid [(1 : ℝ), 2] [(1 : ℝ), -1]).sum = 0
          ∧ ∀ a b : ℝ,
              sse [(1 : ℝ), 2] [(1 : ℝ), -1]
                  (olsAlpha [(1 : ℝ), 2] [(1 : ℝ), -1])
                  (olsBeta [(1 : ℝ), 2] [(1 : ℝ), -1]) ≤
                sse [(1 : ℝ), 2] [(1 : ℝ), -1] a b) :=
  ⟨⟨rfl, by rw [sxx_one_neg_one]; norm_num⟩,
    c3_ols_adf_pipeline constLib [(1 : ℝ), 2] [(1 : ℝ), -1] rfl
      (by rw [sxx_one_neg_one]; norm_num)⟩

end PairSelector
